import Mathlib

/-! ### Definitions -/

/-!
# Verification of the dz configuration language (src/dz/dz.py)

A shallow embedding of the core of the repository: the Lark grammar's
`dict` rule and NUM terminal, the `T` transformer (which converts NUM
tokens to floats, turns `assign`/`const`/`reference` parse nodes into
pairs/tuples and builds Python dicts from record entry lists), and the
`interp` evaluator, which walks the transformed tree against a mutable
environment dictionary.

Numeric literals are modelled as rationals: every literal appearing in
the claims is exactly representable, and the evaluator never performs
arithmetic, so the choice of numeric carrier is irrelevant to all of the
properties below.

Since Python is untyped, `interp` both consumes and produces values of a
single universe: floats, strings, lists, insertion-ordered dicts, and
the `("const", [name, value])` / `("ref", name)` tuples produced by the
transformer.  `STree` is that universe.  The Python dict used as the
environment is modelled as an association list with overwrite-in-place
update (`envSet`) and lookup (`envGet`); a `KeyError` raised by `env[name]`
aborts the whole evaluation, which is modelled by `Option` propagation.
-/
/-- The universe of transformed-tree / evaluated values of dz.py:
floats (`num`), strings (`str`), insertion-ordered dicts (`record`),
lists (`seq`), and the transformer's tuples `("const", [n, v])`
(`constDecl`) and `("ref", n)` (`ref`). -/
inductive STree where
  | num (q : ℚ)
  | str (s : String)
  | record (entries : List (String × STree))
  | seq (items : List STree)
  | constDecl (n : String) (v : STree)
  | ref (n : String)

/-- The mutable environment dictionary, `env` in dz.py. -/
abbrev Env : Type := List (String × STree)

/-- Python dict assignment `env[name] = value`: update the binding in place if `name` is
present, otherwise append it (Python dict assignment). -/
def envSet (n : String) (v : STree) : Env → Env
  | [] => [(n, v)]
  | (m, w) :: rest => if m = n then (n, v) :: rest else (m, w) :: envSet n v rest

/-- Python dict lookup `env[name]` as a total lookup: `some` of the bound value, or `none`
where Python would raise `KeyError`. -/
def envGet (n : String) : Env → Option STree
  | [] => none
  | (m, w) :: rest => if m = n then some w else envGet n rest

/-- Python `dict(pairs)` as used by `T.dict`: starting from an empty
dict, assign each pair's value to its key in order.  A repeated key
keeps its first insertion position but is updated to the later value,
so duplicates are merged before evaluation ever happens. -/
def dictOfPairs (ps : List (String × STree)) : List (String × STree) :=
  ps.foldl (fun acc p => envSet p.1 p.2 acc) []

mutual

/-- The evaluator `interp(tree, env)` from dz.py lines 55-78.  Floats and strings
evaluate to themselves; dicts and lists evaluate their members left to
right, threading the environment; a `("const", [name, value])` tuple
stores the raw `value` (no recursive call!) into the environment and
returns the list `[name, value]`; a `("ref", name)` tuple looks `name`
up in the environment, and a missing key (`KeyError`) aborts the whole
evaluation (`none`). -/
def interp : STree → Env → Option (STree × Env)
  | .num q, e => some (.num q, e)
  | .str s, e => some (.str s, e)
  | .record es, e =>
      match interpEntries es e with
      | some (out, e') => some (.record out, e')
      | none => none
  | .seq items, e =>
      match interpItems items e with
      | some (out, e') => some (.seq out, e')
      | none => none
  | .constDecl n v, e => some (.seq [.str n, v], envSet n v e)
  | .ref n, e =>
      match envGet n e with
      | some v => some (v, e)
      | none => none

/-- the `for k in tree: output[k] = interp(tree[k], env)` loop of the
dict case, building the output dict in key order. -/
def interpEntries : List (String × STree) → Env → Option (List (String × STree) × Env)
  | [], e => some ([], e)
  | (k, v) :: rest, e =>
      match interp v e with
      | some (v', e') =>
        match interpEntries rest e' with
        | some (out, e'') => some ((k, v') :: out, e'')
        | none => none
      | none => none

/-- the `for i in range(len(tree)): output.append(interp(tree[i], env))`
loop of the list case. -/
def interpItems : List STree → Env → Option (List STree × Env)
  | [], e => some ([], e)
  | t :: rest, e =>
      match interp t e with
      | some (v, e') =>
        match interpItems rest e' with
        | some (out, e'') => some (v :: out, e'')
        | none => none
      | none => none

end

/-! ## The concrete scenario program (claim C1)

Source text:
```
5
set a = 5
{ A -> 10. B -> { Z -> 10. a -> 20. e -> $[a]. }. C -> 5. }
```
after parsing and the `T` transform (NUM tokens became floats, `assign`
lists were fed to `dict(...)`, `set a = 5` became `("const", ["a", 5.0])`,
`$[a]` became `("ref", "a")`). -/
def c1inner : STree :=
  .record (dictOfPairs [("Z", .num 10), ("a", .num 20), ("e", .ref "a")])

def c1prog : STree :=
  .seq [.num 5, .constDecl "a" (.num 5),
        .record (dictOfPairs [("A", .num 10), ("B", c1inner), ("C", .num 5)])]

/-- The output sequence claim C1 asserts (with `e` mapped to `20.0`). -/
def c1claimed : STree :=
  .seq [.num 5, .seq [.str "a", .num 5],
    .record [("A", .num 10),
             ("B", .record [("Z", .num 10), ("a", .num 20), ("e", .num 20)]),
             ("C", .num 5)]]

/-- The output sequence the code actually produces (`e` maps to `5.0`,
the value of the program-level constant `a`). -/
def c1actual : STree :=
  .seq [.num 5, .seq [.str "a", .num 5],
    .record [("A", .num 10),
             ("B", .record [("Z", .num 10), ("a", .num 20), ("e", .num 5)]),
             ("C", .num 5)]]

/-! ## Claim C3: duplicate record keys -/
/-- The pair list the transformer receives for the record
`{ x -> set q = 1. x -> 5. }`: two entries with the same key `x`, the
first of which carries a constant declaration as its value. -/
def c3pairs : List (String × STree) :=
  [("x", .constDecl "q" (.num 1)), ("x", .num 5)]

/-- The declarative reading of Python dict construction that the
amendment asserts: the value bound to `k` is the value of the *last*
pair with key `k`, or nothing if no pair has key `k`. -/
def lastBound (k : String) : List (String × STree) → Option STree
  | [] => none
  | (m, w) :: rest =>
      match lastBound k rest with
      | some v => some v
      | none => if m = k then some w else none

/-! ## Claim C10: ConstDecl-free trees never write the environment -/
mutual

/-- holds when `t` contains no `("const", ...)` node anywhere. -/
def noConst : STree → Bool
  | .num _ => true
  | .str _ => true
  | .ref _ => true
  | .constDecl _ _ => false
  | .record es => noConstEntries es
  | .seq items => noConstItems items

def noConstEntries : List (String × STree) → Bool
  | [] => true
  | (_, v) :: rest => noConst v && noConstEntries rest

def noConstItems : List STree → Bool
  | [] => true
  | t :: rest => noConst t && noConstItems rest

end

/-! ## Claim C7: the grammar rejects an empty record -/
/-- The tokens of the dz grammar (`NUM`, `NAME`, and the fixed symbols
`->`, `.`, `{`, `}`, `$[`, `]`, `=`, `set`). -/
inductive Tok where
  | num (q : ℚ)
  | name (s : String)
  | arrow
  | dot
  | lbrace
  | rbrace
  | refOpen
  | refClose
  | eqTok
  | setTok

mutual

/-- rule `value: NUM | dict | const | reference` -/
inductive GValue : List Tok → Prop where
  | num (q : ℚ) : GValue [Tok.num q]
  | dict {ts : List Tok} : GDict ts → GValue ts
  | const {ts : List Tok} : GConst ts → GValue ts
  | ref {ts : List Tok} : GRef ts → GValue ts

/-- rule `dict` -/
inductive GDict : List Tok → Prop where
  | mk {body : List Tok} : GEntries body → GDict (Tok.lbrace :: body ++ [Tok.rbrace])

/-- one or more `assign "."` groups, the body of a dict. -/
inductive GEntries : List Tok → Prop where
  | one {a : List Tok} : GAssign a → GEntries (a ++ [Tok.dot])
  | cons {a rest : List Tok} : GAssign a → GEntries rest → GEntries (a ++ Tok.dot :: rest)

/-- rule `assign: NAME "->" value` -/
inductive GAssign : List Tok → Prop where
  | mk {v : List Tok} (n : String) : GValue v → GAssign (Tok.name n :: Tok.arrow :: v)

/-- rule `const: "set" NAME "=" value` -/
inductive GConst : List Tok → Prop where
  | mk {v : List Tok} (n : String) : GValue v → GConst (Tok.setTok :: Tok.name n :: Tok.eqTok :: v)

/-- rule `reference` -/
inductive GRef : List Tok → Prop where
  | mk (n : String) : GRef [Tok.refOpen, Tok.name n, Tok.refClose]

end

/-! ## Claim C8: the NUM terminal

The grammar's terminal is the regular expression
`-?(\d+|\d+\.\d*|\.\d+)([eE][-+]?\d+)?` (dz.py line 12), fully anchored.
`numLang` is its direct declarative reading as a concatenation of a sign
part, a body alternative and an exponent part; `matchBody`/`matchNum`
are a deterministic scanner for the same terminal. -/
/-- ASCII digit test, `\d`. -/
def isDig (c : Char) : Bool := decide ('0' ≤ c) && decide (c ≤ '9')

/-- the exponent group `([eE][-+]?\d+)?`, as a predicate on the suffix it must consume
entirely. -/
def expPart (ex : List Char) : Prop :=
  ex = [] ∨ ∃ ec sg ds, ex = ec :: sg ++ ds ∧ (ec = 'e' ∨ ec = 'E') ∧
    (sg = [] ∨ sg = ['+'] ∨ sg = ['-']) ∧ ds ≠ [] ∧ ∀ c ∈ ds, isDig c = true

/-- the group `\d+|\d+\.\d*|\.\d+`: the three body alternatives of the NUM
regex. -/
def bodyPart (body : List Char) : Prop :=
  (body ≠ [] ∧ ∀ c ∈ body, isDig c = true) ∨
  (∃ i f, body = i ++ '.' :: f ∧ i ≠ [] ∧ (∀ c ∈ i, isDig c = true) ∧
     ∀ c ∈ f, isDig c = true) ∨
  (∃ f, body = '.' :: f ∧ f ≠ [] ∧ ∀ c ∈ f, isDig c = true)

/-- The language of the NUM terminal: optional `-`, a body, an exponent
part. -/
def numLang (s : List Char) : Prop :=
  ∃ sgn body ex, s = sgn ++ body ++ ex ∧ (sgn = [] ∨ sgn = ['-']) ∧
    bodyPart body ∧ expPart ex

/-- strip one leading minus sign. -/
def stripSign (s : List Char) : List Char :=
  match s with
  | c :: r => if c = '-' then r else s
  | [] => s

/-- a nonempty all-digit run reaching the end of the input. -/
def matchExpDigits (l : List Char) : Bool :=
  !(l.takeWhile isDig).isEmpty && (l.dropWhile isDig).isEmpty

/-- deterministic matcher for the `([eE][-+]?\d+)?` tail: empty, or an
`e`/`E`, an optional sign, and a digit run reaching the end. -/
def matchExp (ex : List Char) : Bool :=
  match ex with
  | [] => true
  | c :: rest =>
      if c = 'e' ∨ c = 'E' then
        matchExpDigits
          (match rest with
           | c2 :: r2 => if c2 = '+' ∨ c2 = '-' then r2 else rest
           | [] => rest)
      else false

/-- deterministic matcher for the sign-stripped NUM terminal: scan the
integer digit run; on a dot, scan the fraction run and require a digit
on at least one side of the dot and a valid exponent tail; otherwise
require a nonempty integer run and a valid exponent tail. -/
def matchBody (s1 : List Char) : Bool :=
  match s1.dropWhile isDig with
  | c :: r2 =>
      if c = '.' then
        (!(s1.takeWhile isDig).isEmpty || !(r2.takeWhile isDig).isEmpty) &&
          matchExp (r2.dropWhile isDig)
      else !(s1.takeWhile isDig).isEmpty && matchExp (s1.dropWhile isDig)
  | [] => !(s1.takeWhile isDig).isEmpty

/-- deterministic matcher for the whole NUM terminal. -/
def matchNum (s : List Char) : Bool := matchBody (stripSign s)

/-- The NUMBER shape set asserted by the claim: as the regex reading,
except that a fractional part must contain at least one digit after the
dot, so a trailing-dot literal like `5.` is excluded. -/
def claimNumShape (s : List Char) : Bool :=
  match (stripSign s).dropWhile isDig with
  | c :: r2 =>
      if c = '.' then
        !(r2.takeWhile isDig).isEmpty && matchExp (r2.dropWhile isDig)
      else !((stripSign s).takeWhile isDig).isEmpty &&
        matchExp ((stripSign s).dropWhile isDig)
  | [] => !((stripSign s).takeWhile isDig).isEmpty

/-! ### Theorems -/

/-! ## Environment lemmas -/
theorem envGet_envSet_self (n : String) (v : STree) (e : Env) :
    envGet n (envSet n v e) = some v := by
  induction e with
  | nil => simp [envSet, envGet]
  | cons p rest ih =>
      obtain ⟨m, w⟩ := p
      by_cases h : m = n
      · simp [envSet, envGet, h]
      · simp [envSet, envGet, h, ih]

theorem envGet_envSet_ne (m n : String) (v : STree) (e : Env) (hmn : m ≠ n) :
    envGet m (envSet n v e) = envGet m e := by
  have hnm : n ≠ m := Ne.symm hmn
  induction e with
  | nil => simp [envSet, envGet, hnm]
  | cons p rest ih =>
      obtain ⟨k, w⟩ := p
      by_cases h : k = n
      · subst h
        simp [envSet, envGet, hnm]
      · by_cases h2 : k = m <;> simp [envSet, envGet, h, h2, hmn, ih]

/-- C1 counterexample: evaluating the concrete scenario program from the
empty environment does terminate, but the produced sequence differs from
the claimed one: the reference `$[a]` under key `e` evaluates to `5.0`
(the global binding made by `set a = 5`), not `20.0`. -/
theorem c1_counterexample :
    interp c1prog [] = some (c1actual, [("a", STree.num 5)]) ∧
    c1actual ≠ c1claimed := by
  constructor
  · rfl
  · simp [c1actual, c1claimed]

/-- C1 (amended): evaluating the concrete scenario program from the
empty environment produces exactly the sequence
`[5.0, ["a", 5.0], {"A": 10.0, "B": {"Z": 10.0, "a": 20.0, "e": 5.0}, "C": 5.0}]`:
the reference `$[a]` bound to key `e` evaluates to `5.0`, the value of
the program-level `a`, because lookup uses the global environment, not
the enclosing record's keys. -/
theorem c1_eval :
    interp c1prog [] =
      some (.seq [.num 5, .seq [.str "a", .num 5],
        .record [("A", .num 10),
                 ("B", .record [("Z", .num 10), ("a", .num 20), ("e", .num 5)]),
                 ("C", .num 5)]], [("a", STree.num 5)]) := rfl

/-! ## Claim C2: what `ConstDecl` evaluation does -/
/-- C2 counterexample: with `a` bound to `7.0`, evaluating the
declaration `("const", ["x", ("ref", "a")])` stores the *raw* tuple
`("ref", "a")` under `x` and returns `["x", ("ref", "a")]`, while the
evaluated form of that value would be `7.0` — so the stored and returned
value is the raw semantic tree, not its evaluated form, refuting the
claim at this input. -/
theorem c2_counterexample :
    interp (.constDecl "x" (.ref "a")) [("a", STree.num 7)] =
      some (.seq [.str "x", .ref "a"], [("a", STree.num 7), ("x", STree.ref "a")]) ∧
    interp (.ref "a") [("a", STree.num 7)] = some (.num 7, [("a", STree.num 7)]) ∧
    STree.ref "a" ≠ STree.num 7 := by
  refine ⟨rfl, rfl, ?_⟩
  simp

/-- C2 (amended): evaluating `ConstDecl(name, v)` performs no recursive
evaluation of `v`: it stores the raw transformed tree `v` into the
environment under `name` (overwriting any prior binding of `name` and
leaving every other binding unchanged) and returns the two-element list
`[name, v]` with the raw `v`.  (Literal numbers still appear evaluated
only because the transformer already converted NUM tokens to floats.) -/
theorem c2_constDecl_stores_raw (n : String) (v : STree) (e : Env) :
    interp (.constDecl n v) e = some (.seq [.str n, v], envSet n v e) ∧
    envGet n (envSet n v e) = some v ∧
    ∀ m, m ≠ n → envGet m (envSet n v e) = envGet m e := by
  refine ⟨rfl, envGet_envSet_self n v e, ?_⟩
  intro m hm
  exact envGet_envSet_ne m n v e hm

/-- Witness for C2 at a concrete input. -/
theorem c2_constDecl_stores_raw_witness :
    interp (.constDecl "x" (.num 1)) [("y", STree.num 2)] =
      some (.seq [.str "x", .num 1], envSet "x" (.num 1) [("y", STree.num 2)]) ∧
    envGet "y" (envSet "x" (.num 1) [("y", STree.num 2)]) =
      envGet "y" [("y", STree.num 2)] := by
  have h := c2_constDecl_stores_raw "x" (.num 1) [("y", STree.num 2)]
  exact ⟨h.1, h.2.2 "y" (by decide)⟩

/-! ## Claim C5: last write wins -/
/-- C5: `set x = 5` followed by `$[x]` (at top level or nested inside a
record) yields `5.0`; `set x = 5`, `set x = 6`, `$[x]` yields `6.0` —
the most recent declaration wins. -/
theorem c5_last_write_wins :
    interp (.seq [.constDecl "x" (.num 5), .ref "x"]) [] =
      some (.seq [.seq [.str "x", .num 5], .num 5], [("x", STree.num 5)]) ∧
    interp (.seq [.constDecl "x" (.num 5), .record [("k", .ref "x")]]) [] =
      some (.seq [.seq [.str "x", .num 5], .record [("k", .num 5)]],
            [("x", STree.num 5)]) ∧
    interp (.seq [.constDecl "x" (.num 5), .constDecl "x" (.num 6), .ref "x"]) [] =
      some (.seq [.seq [.str "x", .num 5], .seq [.str "x", .num 6], .num 6],
            [("x", STree.num 6)]) :=
  ⟨rfl, rfl, rfl⟩

/-- C3 counterexample: `dict(...)` in the transformer merges the two
`x` entries before evaluation, so the semantic record does NOT preserve
both entries; evaluating the merged record from the empty environment
returns the empty environment — the constant declaration `set q = 1`
nested in the earlier duplicate's value is dropped un-evaluated and its
side effect never takes effect, refuting the claim. -/
theorem c3_counterexample :
    dictOfPairs c3pairs = [("x", STree.num 5)] ∧
    dictOfPairs c3pairs ≠ c3pairs ∧
    interp (.record (dictOfPairs c3pairs)) [] =
      some (.record [("x", STree.num 5)], []) := by
  refine ⟨rfl, ?_, rfl⟩
  simp [dictOfPairs, c3pairs, envSet]

theorem envSet_map_fst (n : String) (v : STree) (e : Env) :
    (envSet n v e).map Prod.fst =
      if n ∈ e.map Prod.fst then e.map Prod.fst else e.map Prod.fst ++ [n] := by
  induction e with
  | nil => simp [envSet]
  | cons p rest ih =>
      obtain ⟨k, w⟩ := p
      by_cases h : k = n
      · subst h
        simp [envSet]
      · have hn : ¬n = k := fun hh => h hh.symm
        by_cases hm : n ∈ rest.map Prod.fst <;>
          simp [envSet, h, hn, hm, ih]

theorem envSet_nodup (n : String) (v : STree) (e : Env)
    (h : (e.map Prod.fst).Nodup) : ((envSet n v e).map Prod.fst).Nodup := by
  rw [envSet_map_fst]
  by_cases hm : n ∈ e.map Prod.fst
  · simpa [hm] using h
  · simp [hm, List.nodup_append, h]

theorem foldl_envSet_nodup (ps : List (String × STree)) (acc : Env)
    (h : (acc.map Prod.fst).Nodup) :
    ((ps.foldl (fun a p => envSet p.1 p.2 a) acc).map Prod.fst).Nodup := by
  induction ps generalizing acc with
  | nil => simpa using h
  | cons p rest ih => exact ih _ (envSet_nodup _ _ _ h)

theorem envGet_foldl_envSet (ps : List (String × STree)) (acc : Env) (k : String) :
    envGet k (ps.foldl (fun a p => envSet p.1 p.2 a) acc) =
      match lastBound k ps with
      | some v => some v
      | none => envGet k acc := by
  induction ps generalizing acc with
  | nil => simp [lastBound]
  | cons p rest ih =>
      obtain ⟨m, w⟩ := p
      have step : List.foldl (fun a p => envSet p.1 p.2 a) acc ((m, w) :: rest) =
          List.foldl (fun a p => envSet p.1 p.2 a) (envSet m w acc) rest := rfl
      rw [step, ih]
      cases hl : lastBound k rest with
      | some v => simp [lastBound, hl]
      | none =>
          by_cases hm : m = k
          · subst hm
            simp [lastBound, hl, envGet_envSet_self]
          · have hkm : k ≠ m := fun hh => hm hh.symm
            simp [lastBound, hl, hm, envGet_envSet_ne k m w acc hkm]

/-- C3 (amended): entries with a duplicated key are merged already by
the transformer (`T.dict` builds a Python dict from the entry list), so
the semantic record never holds two entries with the same key: its key
list is duplicate-free, and each key is bound to the value of the last
source entry with that key.  Earlier duplicates' values are discarded
before evaluation, so their side effects never take effect (see the
counterexample). -/
theorem c3_duplicates_merged_by_transform (ps : List (String × STree)) :
    ((dictOfPairs ps).map Prod.fst).Nodup ∧
    ∀ k, envGet k (dictOfPairs ps) = lastBound k ps := by
  constructor
  · exact foldl_envSet_nodup ps [] (by simp)
  · intro k
    have h := envGet_foldl_envSet ps [] k
    cases hl : lastBound k ps with
    | some v => simpa [hl] using h
    | none => simpa [hl, envGet] using h

/-! ## Claim C4: unbound references -/
theorem interpItems_append (l1 l2 : List STree) (e : Env) :
    interpItems (l1 ++ l2) e =
      match interpItems l1 e with
      | some (vs, e') =>
          (match interpItems l2 e' with
           | some (ws, e'') => some (vs ++ ws, e'')
           | none => none)
      | none => none := by
  induction l1 generalizing e with
  | nil =>
      simp only [List.nil_append, interpItems]
      cases h : interpItems l2 e with
      | none => rfl
      | some p =>
          obtain ⟨ws, e2⟩ := p
          simp
  | cons t rest ih =>
      cases h : interp t e with
      | none => simp [interpItems, h]
      | some p =>
          obtain ⟨v, e1⟩ := p
          simp only [List.cons_append, interpItems, h, List.append_eq]
          rw [ih]
          cases h2 : interpItems rest e1 with
          | none => simp [h2]
          | some p2 =>
              obtain ⟨vs, e2⟩ := p2
              cases h3 : interpItems l2 e2 with
              | none => simp [h2, h3]
              | some p3 =>
                  obtain ⟨ws, e3⟩ := p3
                  simp [h2, h3]

/-- C4 counterexample: the one-entry program `set x = $[zzz]` contains a
reference to `zzz`, and no `ConstDecl` for `zzz` is ever evaluated — yet
evaluation does NOT fail: because `ConstDecl` stores its value tree raw,
the reference is never looked up, and the program evaluates to a full
(non-partial) result with the raw tuple stored under `x`. -/
theorem c4_counterexample :
    envGet "zzz" ([] : Env) = none ∧
    interp (.ref "zzz") [] = none ∧
    interp (.seq [.constDecl "x" (.ref "zzz")]) [] =
      some (.seq [.seq [.str "x", .ref "zzz"]], [("x", STree.ref "zzz")]) :=
  ⟨rfl, rfl, rfl⟩

/-- C4 (amended): a reference that the evaluator actually reaches with
its name unbound is fatal: if evaluating a prefix of a top-level
sequence succeeds and leaves an environment in which `n` is unbound,
then evaluating the whole sequence with `$[n]` next returns no result at
all (the `KeyError` aborts the run; nothing after the reference is
evaluated and no partial output is produced).  References that the
evaluator never reaches — those stored raw inside a `ConstDecl` value or
dropped by duplicate-key merging — do not trigger this failure (see the
counterexample). -/
theorem c4_unbound_reference_fatal (pre post : List STree) (n : String)
    (e e' : Env) (vs : List STree)
    (h1 : interpItems pre e = some (vs, e'))
    (h2 : envGet n e' = none) :
    interp (.seq (pre ++ .ref n :: post)) e = none := by
  have hall := interpItems_append pre (.ref n :: post) e
  have hr : interpItems (STree.ref n :: post) e' = none := by
    simp [interpItems, interp, h2]
  simp only [h1, hr] at hall
  simp [interp, hall]

/-- Witness for C4 at a concrete input: after `set x = 5`, the program
`set x = 5` followed by `$[y]` fails as a whole. -/
theorem c4_unbound_reference_fatal_witness :
    interpItems [STree.constDecl "x" (STree.num 5)] [] =
      some ([STree.seq [STree.str "x", STree.num 5]], [("x", STree.num 5)]) ∧
    envGet "y" [("x", STree.num 5)] = none ∧
    interp (.seq ([STree.constDecl "x" (STree.num 5)] ++ STree.ref "y" :: [])) [] =
      none := by
  refine ⟨rfl, rfl, ?_⟩
  exact c4_unbound_reference_fatal [STree.constDecl "x" (STree.num 5)] [] "y" []
    [("x", STree.num 5)] [STree.seq [STree.str "x", STree.num 5]] rfl rfl

/-! ## Claim C6: numeric-only programs evaluate to themselves -/
theorem interpItems_nums (qs : List ℚ) (e : Env) :
    interpItems (qs.map STree.num) e = some (qs.map STree.num, e) := by
  induction qs with
  | nil => rfl
  | cons q rest ih => simp [interpItems, interp, ih]

/-- C6: a program whose top-level values are all numeric literals
evaluates, in any environment, to exactly the parsed numeric sequence in
order (so its serialized output is the serialization of that sequence),
and the environment is left unchanged. -/
theorem c6_numeric_identity (qs : List ℚ) (e : Env) :
    interp (.seq (qs.map STree.num)) e = some (.seq (qs.map STree.num), e) := by
  simp [interp, interpItems_nums]

/-! ## Claim C9: the environment grows monotonically -/
mutual

theorem envMonoTree (t : STree) (e : Env) (v : STree) (e' : Env)
    (h : interp t e = some (v, e')) (n : String) (hb : (envGet n e).isSome = true) :
    (envGet n e').isSome = true := by
  cases t with
  | num q =>
      simp [interp] at h
      obtain ⟨hv, he⟩ := h
      subst he
      exact hb
  | str s =>
      simp [interp] at h
      obtain ⟨hv, he⟩ := h
      subst he
      exact hb
  | ref m =>
      cases hg : envGet m e with
      | none => simp [interp, hg] at h
      | some w =>
          simp [interp, hg] at h
          obtain ⟨hv, he⟩ := h
          subst he
          exact hb
  | constDecl nm vl =>
      simp [interp] at h
      obtain ⟨hv, he⟩ := h
      subst he
      by_cases hn : n = nm
      · subst hn
        simp [envGet_envSet_self]
      · rw [envGet_envSet_ne n nm vl e hn]
        exact hb
  | record es =>
      cases hE : interpEntries es e with
      | none => simp [interp, hE] at h
      | some p =>
          obtain ⟨out, e2⟩ := p
          simp [interp, hE] at h
          obtain ⟨hv, he⟩ := h
          subst he
          exact envMonoEntries es e out e2 hE n hb
  | seq items =>
      cases hI : interpItems items e with
      | none => simp [interp, hI] at h
      | some p =>
          obtain ⟨out, e2⟩ := p
          simp [interp, hI] at h
          obtain ⟨hv, he⟩ := h
          subst he
          exact envMonoItems items e out e2 hI n hb

theorem envMonoEntries (es : List (String × STree)) (e : Env)
    (out : List (String × STree)) (e' : Env)
    (h : interpEntries es e = some (out, e')) (n : String)
    (hb : (envGet n e).isSome = true) : (envGet n e').isSome = true := by
  cases es with
  | nil =>
      simp [interpEntries] at h
      obtain ⟨ho, he⟩ := h
      subst he
      exact hb
  | cons p rest =>
      obtain ⟨k, v⟩ := p
      cases h1 : interp v e with
      | none => simp [interpEntries, h1] at h
      | some q =>
          obtain ⟨v1, e1⟩ := q
          cases h2 : interpEntries rest e1 with
          | none => simp [interpEntries, h1, h2] at h
          | some q2 =>
              obtain ⟨out2, e2⟩ := q2
              simp [interpEntries, h1, h2] at h
              obtain ⟨ho, he⟩ := h
              subst he
              exact envMonoEntries rest e1 out2 e2 h2 n (envMonoTree v e v1 e1 h1 n hb)

theorem envMonoItems (items : List STree) (e : Env) (out : List STree) (e' : Env)
    (h : interpItems items e = some (out, e')) (n : String)
    (hb : (envGet n e).isSome = true) : (envGet n e').isSome = true := by
  cases items with
  | nil =>
      simp [interpItems] at h
      obtain ⟨ho, he⟩ := h
      subst he
      exact hb
  | cons t rest =>
      cases h1 : interp t e with
      | none => simp [interpItems, h1] at h
      | some q =>
          obtain ⟨v1, e1⟩ := q
          cases h2 : interpItems rest e1 with
          | none => simp [interpItems, h1, h2] at h
          | some q2 =>
              obtain ⟨out2, e2⟩ := q2
              simp [interpItems, h1, h2] at h
              obtain ⟨ho, he⟩ := h
              subst he
              exact envMonoItems rest e1 out2 e2 h2 n (envMonoTree t e v1 e1 h1 n hb)

end

/-- C9: the environment grows monotonically during evaluation: whenever
`interp t e` succeeds with final environment `e'`, every name bound in
`e` is still bound in `e'` (possibly to a different value) — no case of
the evaluator ever removes a binding. -/
theorem c9_env_monotone (t : STree) (e : Env) (v : STree) (e' : Env)
    (h : interp t e = some (v, e')) (n : String) (hb : (envGet n e).isSome = true) :
    (envGet n e').isSome = true :=
  envMonoTree t e v e' h n hb

/-- Witness for C9 at a concrete input: evaluating `set x = 1` in an
environment binding `y` keeps `y` bound. -/
theorem c9_env_monotone_witness :
    (envGet "y" [("y", STree.num 2), ("x", STree.num 1)]).isSome = true :=
  c9_env_monotone (.constDecl "x" (.num 1)) [("y", STree.num 2)]
    (.seq [.str "x", .num 1]) [("y", STree.num 2), ("x", STree.num 1)] rfl "y" rfl

mutual

theorem frameTree (t : STree) (e : Env) (v : STree) (e' : Env)
    (hn : noConst t = true) (h : interp t e = some (v, e')) : e' = e := by
  cases t with
  | num q =>
      simp [interp] at h
      exact h.2.symm
  | str s =>
      simp [interp] at h
      exact h.2.symm
  | ref m =>
      cases hg : envGet m e with
      | none => simp [interp, hg] at h
      | some w =>
          simp [interp, hg] at h
          exact h.2.symm
  | constDecl nm vl => simp [noConst] at hn
  | record es =>
      cases hE : interpEntries es e with
      | none => simp [interp, hE] at h
      | some p =>
          obtain ⟨out, e2⟩ := p
          simp [interp, hE] at h
          rw [← h.2]
          exact frameEntries es e out e2 (by simpa [noConst] using hn) hE
  | seq items =>
      cases hI : interpItems items e with
      | none => simp [interp, hI] at h
      | some p =>
          obtain ⟨out, e2⟩ := p
          simp [interp, hI] at h
          rw [← h.2]
          exact frameItems items e out e2 (by simpa [noConst] using hn) hI
termination_by structural t

theorem frameEntries (es : List (String × STree)) (e : Env)
    (out : List (String × STree)) (e' : Env)
    (hn : noConstEntries es = true) (h : interpEntries es e = some (out, e')) :
    e' = e := by
  cases es with
  | nil =>
      simp [interpEntries] at h
      exact h.2.symm
  | cons p rest =>
      obtain ⟨k, v⟩ := p
      simp [noConstEntries] at hn
      cases h1 : interp v e with
      | none => simp [interpEntries, h1] at h
      | some q =>
          obtain ⟨v1, e1⟩ := q
          cases h2 : interpEntries rest e1 with
          | none => simp [interpEntries, h1, h2] at h
          | some q2 =>
              obtain ⟨out2, e2⟩ := q2
              simp [interpEntries, h1, h2] at h
              have he1 : e1 = e := frameTree v e v1 e1 hn.1 h1
              subst he1
              rw [← h.2]
              exact frameEntries rest e1 out2 e2 hn.2 h2
termination_by structural es

theorem frameItems (items : List STree) (e : Env) (out : List STree) (e' : Env)
    (hn : noConstItems items = true) (h : interpItems items e = some (out, e')) :
    e' = e := by
  cases items with
  | nil =>
      simp [interpItems] at h
      exact h.2.symm
  | cons t rest =>
      simp [noConstItems] at hn
      cases h1 : interp t e with
      | none => simp [interpItems, h1] at h
      | some q =>
          obtain ⟨v1, e1⟩ := q
          cases h2 : interpItems rest e1 with
          | none => simp [interpItems, h1, h2] at h
          | some q2 =>
              obtain ⟨out2, e2⟩ := q2
              simp [interpItems, h1, h2] at h
              have he1 : e1 = e := frameTree t e v1 e1 hn.1 h1
              subst he1
              rw [← h.2]
              exact frameItems rest e1 out2 e2 hn.2 h2
termination_by structural items

end

/-- C10: evaluating any semantic tree containing no `ConstDecl` node
leaves the environment unchanged: the Number, Record, sequence, and
Reference cases only read the environment, never write it. -/
theorem c10_no_const_no_write (t : STree) (e : Env) (v : STree) (e' : Env)
    (hn : noConst t = true) (h : interp t e = some (v, e')) : e' = e :=
  frameTree t e v e' hn h

/-- Witness for C10 at a concrete input: evaluating a record holding a
number and a reference leaves the environment exactly as it was. -/
theorem c10_no_const_no_write_witness : ([("a", STree.num 7)] : Env) = [("a", STree.num 7)] :=
  c10_no_const_no_write (.record [("k", .num 1), ("r", .ref "a")]) [("a", STree.num 7)]
    (.record [("k", STree.num 1), ("r", STree.num 7)]) [("a", STree.num 7)] rfl rfl

theorem gentries_ne_nil {b : List Tok} (h : GEntries b) : b ≠ [] := by
  cases h with
  | one ha => simp
  | cons ha hrest => simp

theorem gdict_shape {ts : List Tok} (h : GDict ts) :
    ∃ body, ts = Tok.lbrace :: body ++ [Tok.rbrace] ∧ GEntries body ∧ body ≠ [] := by
  cases h with
  | mk hb => exact ⟨_, rfl, hb, gentries_ne_nil hb⟩

theorem gdict_not_empty : ¬ GDict [Tok.lbrace, Tok.rbrace] := by
  intro h
  obtain ⟨body, heq, hb, hne⟩ := gdict_shape h
  have h2 : [Tok.rbrace] = body ++ [Tok.rbrace] := by
    simpa using heq
  have h3 : body = [] := by
    have hl := congrArg List.length h2
    simp at hl
    exact hl
  exact hne h3

/-- C7: the token sequence of `{}` is derivable neither as a `dict` nor
as a `value`: the grammar `dict: "{" (assign ".")+ "}"` requires a
nonempty body of dot-terminated assign entries, so every derivable dict
has at least one entry between its braces. -/
theorem c7_empty_record_rejected :
    ¬ GValue [Tok.lbrace, Tok.rbrace] ∧ ¬ GDict [Tok.lbrace, Tok.rbrace] ∧
    ∀ ts, GDict ts →
      ∃ body, ts = Tok.lbrace :: body ++ [Tok.rbrace] ∧ GEntries body ∧ body ≠ [] := by
  refine ⟨?_, gdict_not_empty, fun ts h => gdict_shape h⟩
  intro h
  cases h with
  | dict hd => exact gdict_not_empty hd
  | const hc => cases hc
  | ref hr => cases hr

/-- Witness for C7 at a concrete input: the tokens of `{ A -> 5. }` do
derive a dict, with the nonempty body `A -> 5 .`. -/
theorem c7_empty_record_rejected_witness :
    ∃ body, [Tok.lbrace, Tok.name "A", Tok.arrow, Tok.num 5, Tok.dot, Tok.rbrace] =
      Tok.lbrace :: body ++ [Tok.rbrace] ∧ GEntries body ∧ body ≠ [] :=
  c7_empty_record_rejected.2.2 _ (GDict.mk (GEntries.one (GAssign.mk "A" (GValue.num 5))))

theorem isDig_ne_minus {c : Char} (h : isDig c = true) : ¬c = '-' := by
  intro hc
  rw [hc] at h
  exact absurd h (by decide)

theorem scan_split (ds rest : List Char) (h : ∀ c ∈ ds, isDig c = true)
    (h2 : ∀ c r, rest = c :: r → isDig c = false) :
    (ds ++ rest).takeWhile isDig = ds ∧ (ds ++ rest).dropWhile isDig = rest := by
  induction ds with
  | nil =>
      simp only [List.nil_append]
      cases rest with
      | nil => simp
      | cons c r =>
          have hc := h2 c r rfl
          simp [List.takeWhile_cons, List.dropWhile_cons, hc]
  | cons a t ih =>
      have ha := h a (List.mem_cons_self a t)
      have iht := ih fun c hc => h c (List.mem_cons_of_mem a hc)
      simp [List.takeWhile_cons, List.dropWhile_cons, ha, iht.1, iht.2]

theorem scan_all (ds : List Char) (h : ∀ c ∈ ds, isDig c = true) :
    ds.takeWhile isDig = ds ∧ ds.dropWhile isDig = [] := by
  have h2 := scan_split ds [] h (by intro c r hc; cases hc)
  simpa using h2

theorem dropWhile_head_not {l : List Char} {c : Char} {r : List Char}
    (h : l.dropWhile isDig = c :: r) : isDig c = false := by
  induction l with
  | nil => cases h
  | cons a t ih =>
      by_cases ha : isDig a
      · rw [List.dropWhile_cons, if_pos (by simpa using ha)] at h
        exact ih h
      · rw [List.dropWhile_cons, if_neg (by simpa using ha)] at h
        cases h
        simpa using ha

theorem digits_of_scan {l : List Char}
    (h1 : (l.takeWhile isDig).isEmpty = false) (h2 : (l.dropWhile isDig).isEmpty = true) :
    l ≠ [] ∧ ∀ c ∈ l, isDig c = true := by
  have hd : l.dropWhile isDig = [] := by
    cases hdw : l.dropWhile isDig with
    | nil => rfl
    | cons c r => rw [hdw] at h2; cases h2
  have hl : l.takeWhile isDig = l := by
    have := List.takeWhile_append_dropWhile (p := isDig) (l := l)
    rw [hd] at this
    simpa using this
  constructor
  · intro hnil
    rw [hnil] at h1
    cases h1
  · intro c hc
    exact List.mem_takeWhile_imp (by rw [hl]; exact hc)

theorem isEmpty_false_of_ne_nil {l : List Char} (h : l ≠ []) : l.isEmpty = false := by
  cases l with
  | nil => exact absurd rfl h
  | cons a t => rfl

theorem matchExpDigits_true {ds : List Char} (hds : ds ≠ [])
    (hdig : ∀ c ∈ ds, isDig c = true) : matchExpDigits ds = true := by
  have hsc := scan_all ds hdig
  simp [matchExpDigits, hsc.1, hsc.2, isEmpty_false_of_ne_nil hds]

theorem matchExpDigits_inv {l : List Char} (h : matchExpDigits l = true) :
    l ≠ [] ∧ ∀ c ∈ l, isDig c = true := by
  simp only [matchExpDigits, Bool.and_eq_true, Bool.not_eq_true'] at h
  exact digits_of_scan h.1 h.2

theorem matchExp_iff (ex : List Char) : matchExp ex = true ↔ expPart ex := by
  cases ex with
  | nil =>
      simp [matchExp, expPart]
  | cons c rest =>
      by_cases hc : c = 'e' ∨ c = 'E'
      · cases rest with
        | nil =>
            have hL : matchExp [c] = false := by
              simp only [matchExp]
              rw [if_pos hc]
              rfl
            rw [hL]
            constructor
            · intro h
              cases h
            · rintro (h | ⟨ec, sg, ds, heq, hec, hsg, hds, hdig⟩)
              · cases h
              · injection heq with h1 h2
                have h3 : sg = [] ∧ ds = [] := List.append_eq_nil.mp h2.symm
                exact absurd h3.2 hds
        | cons c2 r2 =>
            by_cases hc2 : c2 = '+' ∨ c2 = '-'
            · have hred : matchExp (c :: c2 :: r2) = matchExpDigits r2 := by
                show (if c = 'e' ∨ c = 'E' then
                    matchExpDigits (if c2 = '+' ∨ c2 = '-' then r2 else c2 :: r2)
                  else false) = matchExpDigits r2
                rw [if_pos hc2, if_pos hc]
              rw [hred]
              constructor
              · intro h
                obtain ⟨hne, hdig⟩ := matchExpDigits_inv h
                refine Or.inr ⟨c, [c2], r2, rfl, hc, ?_, hne, hdig⟩
                rcases hc2 with h2 | h2
                · exact Or.inr (Or.inl (by rw [h2]))
                · exact Or.inr (Or.inr (by rw [h2]))
              · rintro (h | ⟨ec, sg, ds, heq, hec, hsg, hds, hdig⟩)
                · cases h
                · injection heq with h1 htail
                  rcases hsg with rfl | rfl | rfl
                  · simp only [List.append_eq, List.nil_append] at htail
                    have hd2 : isDig c2 = true := hdig c2 (by rw [← htail]; simp)
                    rcases hc2 with h2 | h2 <;> rw [h2] at hd2 <;> exact absurd hd2 (by decide)
                  · injection htail with hx hy
                    rw [hy]
                    exact matchExpDigits_true hds hdig
                  · injection htail with hx hy
                    rw [hy]
                    exact matchExpDigits_true hds hdig
            · have hred : matchExp (c :: c2 :: r2) = matchExpDigits (c2 :: r2) := by
                show (if c = 'e' ∨ c = 'E' then
                    matchExpDigits (if c2 = '+' ∨ c2 = '-' then r2 else c2 :: r2)
                  else false) = matchExpDigits (c2 :: r2)
                rw [if_neg hc2, if_pos hc]
              rw [hred]
              constructor
              · intro h
                obtain ⟨hne, hdig⟩ := matchExpDigits_inv h
                exact Or.inr ⟨c, [], c2 :: r2, rfl, hc, Or.inl rfl, by simp, hdig⟩
              · rintro (h | ⟨ec, sg, ds, heq, hec, hsg, hds, hdig⟩)
                · cases h
                · injection heq with h1 htail
                  rcases hsg with rfl | rfl | rfl
                  · simp only [List.append_eq, List.nil_append] at htail
                    rw [htail]
                    exact matchExpDigits_true hds hdig
                  · injection htail with hx hy
                    exact absurd (Or.inl hx) hc2
                  · injection htail with hx hy
                    exact absurd (Or.inr hx) hc2
      · have hL : matchExp (c :: rest) = false := by
          simp only [matchExp]
          rw [if_neg hc]
        rw [hL]
        constructor
        · intro h
          cases h
        · rintro (h | ⟨ec, sg, ds, heq, hec, hsg, hds, hdig⟩)
          · cases h
          · injection heq with h1 h2
            rw [h1] at hc
            exact absurd hec hc

theorem expPart_head {ex : List Char} (he : expPart ex) :
    ∀ c r, ex = c :: r → isDig c = false ∧ ¬c = '.' := by
  intro c r hex
  rcases he with rfl | ⟨ec, sg, ds, rfl, hec, hsg, hds, hdig⟩
  · cases hex
  · injection hex with h1 h2
    rcases hec with rfl | rfl
    · rw [← h1]
      exact ⟨by decide, by decide⟩
    · rw [← h1]
      exact ⟨by decide, by decide⟩

theorem bodyPart_head {body : List Char} (hb : bodyPart body) :
    ∃ c r, body = c :: r ∧ ¬c = '-' := by
  rcases hb with ⟨hne, hdig⟩ | ⟨i, f, rfl, hine, hdigi, hdigf⟩ | ⟨f, rfl, hfne, hdigf⟩
  · cases body with
    | nil => exact absurd rfl hne
    | cons c r => exact ⟨c, r, rfl, isDig_ne_minus (hdig c (by simp))⟩
  · cases i with
    | nil => exact absurd rfl hine
    | cons c r => exact ⟨c, r ++ '.' :: f, by simp, isDig_ne_minus (hdigi c (by simp))⟩
  · exact ⟨'.', f, rfl, by decide⟩

theorem matchBody_iff (s1 : List Char) :
    matchBody s1 = true ↔ ∃ body ex, s1 = body ++ ex ∧ bodyPart body ∧ expPart ex := by
  constructor
  · intro h
    have hsplit := List.takeWhile_append_dropWhile (p := isDig) (l := s1)
    have hdigi : ∀ c ∈ s1.takeWhile isDig, isDig c = true :=
      fun c hc => List.mem_takeWhile_imp hc
    cases hr1 : s1.dropWhile isDig with
    | nil =>
        simp only [matchBody, hr1, Bool.not_eq_true'] at h
        refine ⟨s1.takeWhile isDig, [], ?_, Or.inl ⟨?_, hdigi⟩, Or.inl rfl⟩
        · rw [List.append_nil]
          rw [hr1, List.append_nil] at hsplit
          exact hsplit.symm
        · intro hnil
          rw [hnil] at h
          cases h
    | cons c r2 =>
        simp only [matchBody, hr1] at h
        by_cases hdot : c = '.'
        · subst hdot
          rw [if_pos rfl] at h
          simp only [Bool.and_eq_true, Bool.or_eq_true, Bool.not_eq_true'] at h
          obtain ⟨hor, hexp⟩ := h
          have hsplit2 := List.takeWhile_append_dropWhile (p := isDig) (l := r2)
          have hdigf : ∀ c2 ∈ r2.takeWhile isDig, isDig c2 = true :=
            fun c2 hc2 => List.mem_takeWhile_imp hc2
          have hexP : expPart (r2.dropWhile isDig) := (matchExp_iff _).mp hexp
          refine ⟨s1.takeWhile isDig ++ '.' :: r2.takeWhile isDig, r2.dropWhile isDig,
            ?_, ?_, hexP⟩
          · rw [List.append_assoc, List.cons_append, hsplit2, ← hr1, hsplit]
          · by_cases hi0 : s1.takeWhile isDig = []
            · have hf : (r2.takeWhile isDig).isEmpty = false := by
                rcases hor with hi | hf
                · rw [hi0] at hi
                  cases hi
                · exact hf
              have hfne : r2.takeWhile isDig ≠ [] := by
                intro hnil
                rw [hnil] at hf
                cases hf
              rw [hi0, List.nil_append]
              exact Or.inr (Or.inr ⟨r2.takeWhile isDig, rfl, hfne, hdigf⟩)
            · exact Or.inr (Or.inl ⟨s1.takeWhile isDig, r2.takeWhile isDig, rfl,
                hi0, hdigi, hdigf⟩)
        · rw [if_neg hdot] at h
          simp only [Bool.and_eq_true, Bool.not_eq_true'] at h
          obtain ⟨hi, hexp⟩ := h
          have hexP : expPart (c :: r2) := by
            rw [← hr1]
            exact (matchExp_iff _).mp (by rw [hr1]; exact hexp)
          refine ⟨s1.takeWhile isDig, c :: r2, ?_, Or.inl ⟨?_, hdigi⟩, hexP⟩
          · rw [← hr1, hsplit]
          · intro hnil
            rw [hnil] at hi
            cases hi
  · rintro ⟨body, ex, rfl, hb, he⟩
    have hexhead : ∀ c r, ex = c :: r → isDig c = false :=
      fun c r hcr => (expPart_head he c r hcr).1
    rcases hb with ⟨hne, hdig⟩ | ⟨i, f, rfl, hine, hdigi, hdigf⟩ | ⟨f, rfl, hfne, hdigf⟩
    · have hsc := scan_split body ex hdig hexhead
      cases hex : ex with
      | nil =>
          subst hex
          rw [List.append_nil] at hsc
          simp [matchBody, hsc.1, hsc.2, isEmpty_false_of_ne_nil hne]
      | cons c r =>
          subst hex
          have hcdot : ¬c = '.' := (expPart_head he c r rfl).2
          simp only [matchBody, hsc.1, hsc.2, if_neg hcdot]
          simp [isEmpty_false_of_ne_nil hne, (matchExp_iff _).mpr he]
    · have hrearr : (i ++ '.' :: f) ++ ex = i ++ '.' :: (f ++ ex) := by simp
      rw [hrearr]
      have hscI := scan_split i ('.' :: (f ++ ex)) hdigi
        (by intro c r hcr; injection hcr with h1 h2; rw [← h1]; decide)
      have hscF := scan_split f ex hdigf hexhead
      simp only [matchBody, hscI.1, hscI.2, if_pos rfl, hscF.1, hscF.2]
      simp [isEmpty_false_of_ne_nil hine, (matchExp_iff _).mpr he]
    · rw [List.cons_append]
      have hscI := scan_split [] ('.' :: (f ++ ex)) (by intro c hc; cases hc)
        (by intro c r hcr; injection hcr with h1 h2; rw [← h1]; decide)
      simp only [List.nil_append] at hscI
      have hscF := scan_split f ex hdigf hexhead
      simp only [matchBody, hscI.1, hscI.2, if_pos rfl, hscF.1, hscF.2]
      simp [isEmpty_false_of_ne_nil hfne, (matchExp_iff _).mpr he]

/-- C8 counterexample: the string `5.` (digits, dot, no fraction digits)
IS in the NUM terminal's language — the regex alternative `\d+\.\d*`
allows an empty fraction — but it is not of any of the shapes the claim
describes, refuting the claimed characterization at this input. -/
theorem c8_counterexample :
    numLang ['5', '.'] ∧ matchNum ['5', '.'] = true ∧
      claimNumShape ['5', '.'] = false := by
  refine ⟨⟨[], ['5', '.'], [], rfl, Or.inl rfl,
    Or.inr (Or.inl ⟨['5'], [], rfl, by decide, by decide, by decide⟩),
    Or.inl rfl⟩, by decide, by decide⟩

/-- C8 (amended): the set of strings the lexer recognizes as a NUMBER
token is exactly: an optional leading `-`, then either a nonempty digit
run, or a nonempty digit run followed by a dot and a possibly-empty
digit run, or a dot followed by a nonempty digit run (numbers with no
integer part such as `.5`), then an optional exponent `[eE][+-]?digits`
— in particular a literal with a trailing dot and no fractional digits,
like `5.`, IS a NUMBER.  Formally: the deterministic scanner `matchNum`
accepts exactly the language `numLang` of the NUM regex. -/
theorem c8_num_lexer_matches_regex (s : List Char) :
    numLang s ↔ matchNum s = true := by
  constructor
  · rintro ⟨sgn, body, ex, rfl, hsgn, hb, he⟩
    have hm : matchBody (body ++ ex) = true :=
      (matchBody_iff _).mpr ⟨body, ex, rfl, hb, he⟩
    rcases hsgn with rfl | rfl
    · obtain ⟨c, r, hbeq, hcm⟩ := bodyPart_head hb
      show matchBody (stripSign ([] ++ body ++ ex)) = true
      rw [List.nil_append, hbeq, List.cons_append]
      show matchBody (if c = '-' then r ++ ex else c :: (r ++ ex)) = true
      rw [if_neg hcm, ← List.cons_append, ← hbeq]
      exact hm
    · show matchBody (stripSign (['-'] ++ body ++ ex)) = true
      rw [List.cons_append, List.nil_append]
      show matchBody (if '-' = '-' then body ++ ex else '-' :: (body ++ ex)) = true
      rw [if_pos rfl]
      exact hm
  · intro h
    obtain ⟨body, ex, heq, hb, he⟩ := (matchBody_iff _).mp h
    cases s with
    | nil =>
        refine ⟨[], body, ex, ?_, Or.inl rfl, hb, he⟩
        simpa [stripSign] using heq
    | cons c r =>
        by_cases hcm : c = '-'
        · subst hcm
          refine ⟨['-'], body, ex, ?_, Or.inr rfl, hb, he⟩
          have hss : stripSign ('-' :: r) = r := by simp [stripSign]
          rw [hss] at heq
          rw [heq]
          rfl
        · have hss : stripSign (c :: r) = c :: r := by simp [stripSign, hcm]
          rw [hss] at heq
          exact ⟨[], body, ex, by simpa using heq, Or.inl rfl, hb, he⟩
